import Mathlib

/-!
# Verification of the SvelteKit dev-time pipeline (packages/kit/src/vite)

Shallow embedding of `packages/kit/src/vite/utils.js` and
`packages/kit/src/vite/dev/index.js`.

Modelling conventions:
* Module ids are `String`s.  `vite.normalizePath` is an external collaborator
  (the vite package, not part of this repository); module ids in the graphs
  handled by the checker are canonicalized (spec §3 "canonicalized absolute
  path or virtual id"), on which normalization is the identity, so the calls
  to `normalizePath` are dropped.
* The rollup module graph collaborator (`node_getter`) is modelled as lookup
  in a finite list of `ModuleInfo` records.
* JavaScript `Set` values (`seen`, `illegal_imports`) are modelled as
  `List String` with membership tests; the mutation of the shared `seen` set
  is made explicit by threading the list through the recursion and returning
  the final state.
* The JS recursion terminates because `seen` grows along every descent; the
  Lean embedding uses explicit fuel, and `find_illegal_rollup_imports_isSome`
  below proves that the fuel supplied by the entry points is sufficient.
-/

/-- One entry of an illegal-import chain (`types.ImportNode`):
the module name and whether the edge *into* it was a dynamic import. -/
structure ImportNode where
  name : String
  dynamic : Bool
deriving DecidableEq, Repr

/-- The slice of rollup's `ModuleInfo` read by the checker:
the module id, its static import ids and its dynamic import ids. -/
structure ModuleInfo where
  id : String
  importedIds : List String
  dynamicallyImportedIds : List String
deriving DecidableEq, Repr

/-- The rollup module graph: a finite collection of module records. -/
abbrev RollupGraph := List ModuleInfo

/-- The `node_getter` collaborator (`id => this.getModuleInfo(id)`),
modelled as lookup in the finite graph. -/
def node_getter (g : RollupGraph) (id : String) : Option ModuleInfo :=
  g.find? (fun n => n.id = id)

/-- Result of one traversal step: the chain found (if any) together with the
final state of the mutable `seen` set.  `none` at the outer level means the
fuel ran out (never happens for the fuel used by the entry points). -/
abbrev SearchResult := Option (Option (List ImportNode) × List String)

/-- The two `for` loops of `find_illegal_rollup_imports`, fused into one walk
over the statically imported ids (tagged `false`) followed by the dynamically
imported ids (tagged `true`).  For each id the child is looked up via
`node_getter`; an unresolvable id is skipped (`child && …`); a chain found in
a child is returned immediately, otherwise the loop continues with the
updated `seen` set. -/
def go_children (g : RollupGraph) (f : ModuleInfo → Bool → List String → SearchResult) :
    List (String × Bool) → List String → SearchResult
  | [], seen => some (none, seen)
  | (id, dyn) :: rest, seen =>
    match node_getter g id with
    | none => go_children g f rest seen
    | some child =>
      match f child dyn seen with
      | none => none
      | some (some chain, seen2) => some (some chain, seen2)
      | some (none, seen2) => go_children g f rest seen2

/-- The ids the two loops of `find_illegal_rollup_imports` iterate over:
first `node.importedIds` (static, tagged `false`), then
`node.dynamicallyImportedIds` (dynamic, tagged `true`). -/
def rollup_children (node : ModuleInfo) : List (String × Bool) :=
  node.importedIds.map (fun i => (i, false)) ++
    node.dynamicallyImportedIds.map (fun i => (i, true))

/-- `find_illegal_rollup_imports` from `src/vite/utils.js`:
depth-first search from `node`; if the (canonical) name is already in `seen`
the branch reports no violation; otherwise the name is added to `seen`; a
forbidden name yields the singleton chain tagged with the incoming edge kind;
otherwise static then dynamic children are searched and a child chain is
returned with the current node prepended; on exhaustion the name is removed
from `seen` again (`seen.delete(name)`) and no violation is reported. -/
def find_illegal_rollup_imports (g : RollupGraph) (illegal : List String) :
    Nat → ModuleInfo → Bool → List String → SearchResult
  | 0, _, _, _ => none
  | fuel + 1, node, dyn, seen =>
    let name := node.id
    if name ∈ seen then some (none, seen)
    else if name ∈ illegal then some (some [⟨name, dyn⟩], name :: seen)
    else
      match go_children g (fun c d s => find_illegal_rollup_imports g illegal fuel c d s)
          (rollup_children node) (name :: seen) with
      | none => none
      | some (some chain, seen2) => some (some (⟨name, dyn⟩ :: chain), seen2)
      | some (none, seen2) => some (none, seen2.erase name)

/-- Fuel sufficient for any traversal of `g` (proved by
`find_illegal_rollup_imports_isSome`). -/
def rollupFuel (g : RollupGraph) : Nat := g.length + 2

/-- `prevent_illegal_rollup_imports` from `src/vite/utils.js`: run the search
from `node` with an empty `seen` set and a non-dynamic incoming edge, and
throw iff a chain was found.  The thrown `Error` is represented by the chain
it is built from (`format_illegal_import_chain` only renders the chain as a
string). -/
def prevent_illegal_rollup_imports (g : RollupGraph) (node : ModuleInfo)
    (illegal : List String) : Except (List ImportNode) Unit :=
  match find_illegal_rollup_imports g illegal (rollupFuel g) node false [] with
  | some (some chain, _) => .error chain
  | _ => .ok ()

/-- A member of the forbidden set is transitively reachable (reflexive
transitive closure of the static/dynamic import edges, resolved through the
`node_getter` collaborator) from `node`. -/
inductive Reaches (g : RollupGraph) (illegal : List String) : ModuleInfo → Prop
  | here {node : ModuleInfo} : node.id ∈ illegal → Reaches g illegal node
  | step {node child : ModuleInfo} {id : String} :
      (id ∈ node.importedIds ∨ id ∈ node.dynamicallyImportedIds) →
      node_getter g id = some child → Reaches g illegal child → Reaches g illegal node

/-- A walk of length at most `k` from `node` to a forbidden id, all of whose
vertices stay outside `seen`. -/
inductive ROn (g : RollupGraph) (illegal : List String) (seen : List String) :
    Nat → ModuleInfo → Prop
  | here {k : Nat} {node : ModuleInfo} :
      node.id ∉ seen → node.id ∈ illegal → ROn g illegal seen k node
  | step {k : Nat} {node child : ModuleInfo} {id : String} :
      node.id ∉ seen →
      (id ∈ node.importedIds ∨ id ∈ node.dynamicallyImportedIds) →
      node_getter g id = some child → ROn g illegal seen k child →
      ROn g illegal seen (k + 1) node

/-- `chain` is a genuine import chain from `node` (whose incoming edge kind is
`dyn`) down to the first forbidden module: it lists the ids along a
getter-resolved path, every element is tagged with the kind of the edge that
leads into it, only the last element is forbidden, and the first element is
`node` itself. -/
inductive IsImportChain (g : RollupGraph) (illegal : List String) :
    ModuleInfo → Bool → List ImportNode → Prop
  | last {node : ModuleInfo} {dyn : Bool} :
      node.id ∈ illegal → IsImportChain g illegal node dyn [⟨node.id, dyn⟩]
  | cons {node child : ModuleInfo} {dyn d : Bool} {id : String}
      {rest : List ImportNode} :
      node.id ∉ illegal →
      ((d = false ∧ id ∈ node.importedIds) ∨ (d = true ∧ id ∈ node.dynamicallyImportedIds)) →
      node_getter g id = some child →
      IsImportChain g illegal child d rest →
      IsImportChain g illegal node dyn (⟨node.id, dyn⟩ :: rest)

theorem node_getter_mem {g : RollupGraph} {id : String} {c : ModuleInfo}
    (h : node_getter g id = some c) : c ∈ g :=
  List.mem_of_find?_eq_some h

theorem node_getter_id {g : RollupGraph} {id : String} {c : ModuleInfo}
    (h : node_getter g id = some c) : c.id = id := by
  have := List.find?_some h
  exact of_decide_eq_true this

theorem IsImportChain.chain_reaches {g : RollupGraph} {illegal : List String}
    {node : ModuleInfo} {dyn : Bool} {chain : List ImportNode}
    (h : IsImportChain g illegal node dyn chain) : Reaches g illegal node := by
  induction h with
  | last hill => exact Reaches.here hill
  | cons hnill hedge hget _ ih =>
    refine Reaches.step ?_ hget ih
    rcases hedge with ⟨_, hmem⟩ | ⟨_, hmem⟩
    · exact Or.inl hmem
    · exact Or.inr hmem

theorem IsImportChain.head_eq {g : RollupGraph} {illegal : List String}
    {node : ModuleInfo} {dyn : Bool} {chain : List ImportNode}
    (h : IsImportChain g illegal node dyn chain) :
    ∃ rest, chain = ⟨node.id, dyn⟩ :: rest := by
  cases h with
  | last _ => exact ⟨[], rfl⟩
  | cons _ _ _ _ => exact ⟨_, rfl⟩

/-! Equation lemmas for `go_children` and `find_illegal_rollup_imports`,
phrased one constructor case at a time so that proofs can rewrite with the
relevant hypothesis about the scrutinee. -/

section EquationLemmas

variable {g : RollupGraph} {illegal : List String}
variable {f : ModuleInfo → Bool → List String → SearchResult}

theorem go_children_nil {seen : List String} :
    go_children g f [] seen = some (none, seen) := rfl

theorem go_children_skip {id : String} {d : Bool} {rest : List (String × Bool)}
    {seen : List String} (hget : node_getter g id = none) :
    go_children g f ((id, d) :: rest) seen = go_children g f rest seen := by
  simp [go_children, hget]

theorem go_children_fuel_out {id : String} {d : Bool} {rest : List (String × Bool)}
    {seen : List String} {c : ModuleInfo} (hget : node_getter g id = some c)
    (hf : f c d seen = none) :
    go_children g f ((id, d) :: rest) seen = none := by
  simp [go_children, hget, hf]

theorem go_children_found {id : String} {d : Bool} {rest : List (String × Bool)}
    {seen s2 : List String} {c : ModuleInfo} {chain : List ImportNode}
    (hget : node_getter g id = some c) (hf : f c d seen = some (some chain, s2)) :
    go_children g f ((id, d) :: rest) seen = some (some chain, s2) := by
  simp [go_children, hget, hf]

theorem go_children_cont {id : String} {d : Bool} {rest : List (String × Bool)}
    {seen s2 : List String} {c : ModuleInfo}
    (hget : node_getter g id = some c) (hf : f c d seen = some (none, s2)) :
    go_children g f ((id, d) :: rest) seen = go_children g f rest s2 := by
  simp [go_children, hget, hf]

theorem find_rollup_zero {node : ModuleInfo} {dyn : Bool} {seen : List String} :
    find_illegal_rollup_imports g illegal 0 node dyn seen = none := rfl

theorem find_rollup_seen {fuel : Nat} {node : ModuleInfo} {dyn : Bool}
    {seen : List String} (h : node.id ∈ seen) :
    find_illegal_rollup_imports g illegal (fuel + 1) node dyn seen = some (none, seen) := by
  simp [find_illegal_rollup_imports, h]

theorem find_rollup_illegal {fuel : Nat} {node : ModuleInfo} {dyn : Bool}
    {seen : List String} (h1 : node.id ∉ seen) (h2 : node.id ∈ illegal) :
    find_illegal_rollup_imports g illegal (fuel + 1) node dyn seen =
      some (some [⟨node.id, dyn⟩], node.id :: seen) := by
  simp [find_illegal_rollup_imports, h1, h2]

theorem find_rollup_go_none {fuel : Nat} {node : ModuleInfo} {dyn : Bool}
    {seen : List String} (h1 : node.id ∉ seen) (h2 : node.id ∉ illegal)
    (hgo : go_children g (fun c d s => find_illegal_rollup_imports g illegal fuel c d s)
        (rollup_children node) (node.id :: seen) = none) :
    find_illegal_rollup_imports g illegal (fuel + 1) node dyn seen = none := by
  simp [find_illegal_rollup_imports, h1, h2, hgo]

theorem find_rollup_go_found {fuel : Nat} {node : ModuleInfo} {dyn : Bool}
    {seen s2 : List String} {chain : List ImportNode}
    (h1 : node.id ∉ seen) (h2 : node.id ∉ illegal)
    (hgo : go_children g (fun c d s => find_illegal_rollup_imports g illegal fuel c d s)
        (rollup_children node) (node.id :: seen) = some (some chain, s2)) :
    find_illegal_rollup_imports g illegal (fuel + 1) node dyn seen =
      some (some (⟨node.id, dyn⟩ :: chain), s2) := by
  simp [find_illegal_rollup_imports, h1, h2, hgo]

theorem find_rollup_go_clean {fuel : Nat} {node : ModuleInfo} {dyn : Bool}
    {seen s2 : List String}
    (h1 : node.id ∉ seen) (h2 : node.id ∉ illegal)
    (hgo : go_children g (fun c d s => find_illegal_rollup_imports g illegal fuel c d s)
        (rollup_children node) (node.id :: seen) = some (none, s2)) :
    find_illegal_rollup_imports g illegal (fuel + 1) node dyn seen =
      some (none, s2.erase node.id) := by
  simp [find_illegal_rollup_imports, h1, h2, hgo]

end EquationLemmas

theorem Reaches.ron {g : RollupGraph} {illegal : List String} {node : ModuleInfo}
    (h : Reaches g illegal node) : ∃ k, ROn g illegal [] k node := by
  induction h with
  | here hill => exact ⟨0, ROn.here (List.not_mem_nil _) hill⟩
  | step hedge hget _ ih =>
    obtain ⟨k, hk⟩ := ih
    exact ⟨k + 1, ROn.step (List.not_mem_nil _) hedge hget hk⟩

theorem ROn.walk_reaches {g : RollupGraph} {illegal : List String} {seen : List String}
    {k : Nat} {node : ModuleInfo} (h : ROn g illegal seen k node) :
    Reaches g illegal node := by
  induction h with
  | here _ hill => exact Reaches.here hill
  | step _ hedge hget _ ih => exact Reaches.step hedge hget ih

/-- `go_children` preserves the restoration property of the step function:
if every no-violation step returns the `seen` set unchanged, then a
no-violation loop returns the `seen` set unchanged. -/
theorem go_children_restore {g : RollupGraph}
    {f : ModuleInfo → Bool → List String → SearchResult}
    (Hf : ∀ c d s s', f c d s = some (none, s') → s' = s) :
    ∀ (l : List (String × Bool)) (sn sn' : List String),
      go_children g f l sn = some (none, sn') → sn' = sn := by
  intro l
  induction l with
  | nil =>
    intro sn sn' hh
    rw [go_children_nil] at hh
    cases hh
    rfl
  | cons hd tl ihl =>
    obtain ⟨id, d⟩ := hd
    intro sn sn' hh
    cases hget : node_getter g id with
    | none =>
      rw [go_children_skip hget] at hh
      exact ihl sn sn' hh
    | some child =>
      cases hf : f child d sn with
      | none => rw [go_children_fuel_out hget hf] at hh; cases hh
      | some p =>
        obtain ⟨r, s2⟩ := p
        cases r with
        | none =>
          have hs2 : s2 = sn := Hf child d sn s2 hf
          rw [go_children_cont hget hf] at hh
          rw [ihl s2 sn' hh, hs2]
        | some chain =>
          rw [go_children_found hget hf] at hh
          cases hh

/-- On a no-violation return the mutable `seen` set is restored to its state
at entry (the only delete is of the name added at entry). -/
theorem find_rollup_restore {g : RollupGraph} {illegal : List String} :
    ∀ (fuel : Nat) (node : ModuleInfo) (dyn : Bool) (seen s' : List String),
      find_illegal_rollup_imports g illegal fuel node dyn seen = some (none, s') →
      s' = seen := by
  intro fuel
  induction fuel with
  | zero => intro node dyn seen s' h; rw [find_rollup_zero] at h; cases h
  | succ n ih =>
    intro node dyn seen s' h
    by_cases hseen : node.id ∈ seen
    · rw [find_rollup_seen hseen] at h
      cases h
      rfl
    · by_cases hill : node.id ∈ illegal
      · rw [find_rollup_illegal hseen hill] at h; cases h
      · cases hgo : go_children g
            (fun c d s => find_illegal_rollup_imports g illegal n c d s)
            (rollup_children node) (node.id :: seen) with
        | none => rw [find_rollup_go_none hseen hill hgo] at h; cases h
        | some p =>
          obtain ⟨r, s2⟩ := p
          cases r with
          | none =>
            have hs2 : s2 = node.id :: seen :=
              go_children_restore (fun c d s s' hf => ih c d s s' hf) _ _ _ hgo
            rw [find_rollup_go_clean hseen hill hgo] at h
            cases h
            rw [hs2, List.erase_cons_head]
          | some chain =>
            rw [find_rollup_go_found hseen hill hgo] at h
            cases h

/-! ## The dev-graph (vite) variant of the checker -/

/-- The slice of vite's `ModuleNode` read by the dev-graph checker.  Vite
module nodes reference their imported modules directly; the object graph
(which may contain cycles) is modelled as a finite array of nodes with
references as indices into it.  `id` may be null (`node.id` falsy). -/
structure ViteModuleNode where
  id : Option String
  importedModules : List Nat
deriving DecidableEq, Repr

/-- `path.extname` (external node `path` collaborator, modelled for
slash-separated paths): the suffix of the basename starting at its last dot,
empty when the basename has no dot or only a leading dot. -/
def extname (p : String) : String :=
  let base := (p.data.reverse.takeWhile (fun c => c ≠ '/')).reverse
  let r := base.reverse
  let pre := r.takeWhile (fun c => c ≠ '.')
  if pre.length = r.length then ""
  else if pre.length + 1 = r.length then ""
  else String.mk ('.' :: pre.reverse)

/-- `get_module_types` from `src/vite/utils.js`: the default analyzable
extensions plus the configured ones (the JS `Set` is modelled as a list with
membership). -/
def get_module_types (config_module_types : List String) : List String :=
  [".ts", ".js", ".svelte", ".mts", ".mjs", ".cts", ".cjs", ".svelte.md",
    ".svx", ".md"] ++ config_module_types

/-- The loop over `node.importedModules` in `find_illegal_vite_imports`:
each reference is resolved in the graph array; an unresolvable (falsy) child
is skipped (`child && …`); a chain found in a child is returned immediately,
otherwise the loop continues with the updated `seen` set. -/
def go_vite_children (g : List ViteModuleNode)
    (f : ViteModuleNode → List String → SearchResult) :
    List Nat → List String → SearchResult
  | [], seen => some (none, seen)
  | i :: rest, seen =>
    match g[i]? with
    | none => go_vite_children g f rest seen
    | some child =>
      match f child seen with
      | none => none
      | some (some chain, seen2) => some (some chain, seen2)
      | some (none, seen2) => go_vite_children g f rest seen2

/-- `find_illegal_vite_imports` from `src/vite/utils.js`: like the rollup
variant but over live dev-graph nodes; nodes with a null id are skipped, only
files whose extension is in `module_types` are analyzed, and — since the vite
graph does not distinguish edge kinds — every chain entry is built with
`dynamic: false`. -/
def find_illegal_vite_imports (g : List ViteModuleNode) (illegal : List String)
    (module_types : List String) :
    Nat → ViteModuleNode → List String → SearchResult
  | 0, _, _ => none
  | fuel + 1, node, seen =>
    match node.id with
    | none => some (none, seen)
    | some nid =>
      let name := nid
      if name ∈ seen ∨ extname name ∉ module_types then some (none, seen)
      else if name ≠ "" ∧ name ∈ illegal then some (some [⟨name, false⟩], name :: seen)
      else
        match go_vite_children g
            (fun c s => find_illegal_vite_imports g illegal module_types fuel c s)
            node.importedModules (name :: seen) with
        | none => none
        | some (some chain, seen2) => some (some (⟨name, false⟩ :: chain), seen2)
        | some (none, seen2) => some (none, seen2.erase name)

/-- `prevent_illegal_vite_imports` from `src/vite/utils.js`: run the
dev-graph search with an empty `seen` set and throw iff a chain was found
(the thrown `Error` is represented by its chain, as for the rollup variant). -/
def prevent_illegal_vite_imports (g : List ViteModuleNode) (node : ViteModuleNode)
    (illegal : List String) (module_types : List String) : Except (List ImportNode) Unit :=
  match find_illegal_vite_imports g illegal (get_module_types module_types)
      (g.length + 2) node [] with
  | some (some chain, _) => .error chain
  | _ => .ok ()

section ViteEquationLemmas

variable {g : List ViteModuleNode} {f : ViteModuleNode → List String → SearchResult}
variable {i : Nat} {rest : List Nat} {seen s2 : List String}

theorem go_vite_skip (hget : g[i]? = none) :
    go_vite_children g f (i :: rest) seen = go_vite_children g f rest seen := by
  simp [go_vite_children, hget]

theorem go_vite_fuel_out {c : ViteModuleNode} (hget : g[i]? = some c)
    (hf : f c seen = none) :
    go_vite_children g f (i :: rest) seen = none := by
  simp [go_vite_children, hget, hf]

theorem go_vite_found {c : ViteModuleNode} {chain : List ImportNode}
    (hget : g[i]? = some c) (hf : f c seen = some (some chain, s2)) :
    go_vite_children g f (i :: rest) seen = some (some chain, s2) := by
  simp [go_vite_children, hget, hf]

theorem go_vite_cont {c : ViteModuleNode} (hget : g[i]? = some c)
    (hf : f c seen = some (none, s2)) :
    go_vite_children g f (i :: rest) seen = go_vite_children g f rest s2 := by
  simp [go_vite_children, hget, hf]

end ViteEquationLemmas

/-- If the dev-graph children loop finds a chain, some resolvable listed
child produced it. -/
theorem go_vite_children_sound {g : List ViteModuleNode}
    {f : ViteModuleNode → List String → SearchResult} :
    ∀ (l : List Nat) (seen s' : List String) (ch : List ImportNode),
      go_vite_children g f l seen = some (some ch, s') →
      ∃ i c s0 s1, i ∈ l ∧ g[i]? = some c ∧ f c s0 = some (some ch, s1) := by
  intro l
  induction l with
  | nil =>
    intro seen s' ch h
    cases h
  | cons i rest ihl =>
    intro seen s' ch h
    cases hget : g[i]? with
    | none =>
      rw [go_vite_skip hget] at h
      obtain ⟨j, c, s0, s1, hm, hg, hf⟩ := ihl seen s' ch h
      exact ⟨j, c, s0, s1, List.mem_cons_of_mem _ hm, hg, hf⟩
    | some child =>
      cases hf : f child seen with
      | none => rw [go_vite_fuel_out hget hf] at h; cases h
      | some p =>
        obtain ⟨r, s2⟩ := p
        cases r with
        | none =>
          rw [go_vite_cont hget hf] at h
          obtain ⟨j, c, s0, s1, hm, hg, hf'⟩ := ihl s2 s' ch h
          exact ⟨j, c, s0, s1, List.mem_cons_of_mem _ hm, hg, hf'⟩
        | some chain2 =>
          rw [go_vite_found hget hf] at h
          cases h
          exact ⟨i, child, seen, _, List.mem_cons_self _ _, hget, hf⟩

/-- Every chain produced by the dev-graph search has `dynamic: false` on
every element. -/
theorem find_vite_all_static {g : List ViteModuleNode} {illegal module_types : List String} :
    ∀ (fuel : Nat) (node : ViteModuleNode) (seen s' : List String)
      (ch : List ImportNode),
      find_illegal_vite_imports g illegal module_types fuel node seen =
        some (some ch, s') →
      ∀ e ∈ ch, e.dynamic = false := by
  intro fuel
  induction fuel with
  | zero => intro node seen s' ch h; cases h
  | succ n ih =>
    intro node seen s' ch h
    rw [find_illegal_vite_imports] at h
    cases hid : node.id with
    | none => rw [hid] at h; cases h
    | some nid =>
      rw [hid] at h
      simp only at h
      by_cases hskip : nid ∈ seen ∨ extname nid ∉ module_types
      · rw [if_pos hskip] at h; cases h
      · rw [if_neg hskip] at h
        by_cases hill : nid ≠ "" ∧ nid ∈ illegal
        · rw [if_pos hill] at h
          cases h
          intro e he
          rcases List.mem_singleton.mp he with rfl
          rfl
        · rw [if_neg hill] at h
          cases hgo : go_vite_children g
              (fun c s => find_illegal_vite_imports g illegal module_types n c s)
              node.importedModules (nid :: seen) with
          | none => rw [hgo] at h; cases h
          | some p =>
            obtain ⟨r, s2⟩ := p
            cases r with
            | none => rw [hgo] at h; cases h
            | some chain =>
              rw [hgo] at h
              cases h
              intro e he
              rcases List.mem_cons.mp he with rfl | he'
              · rfl
              · obtain ⟨i, c, s0, s1, _, _, hf⟩ :=
                  go_vite_children_sound _ _ _ _ hgo
                exact ih c s0 s1 chain hf e he'

/-- C10: any import chain produced by the dev-graph checker variant
(`find_illegal_vite_imports` / `prevent_illegal_vite_imports`) has
`dynamic: false` on every element — the dev variant never tags any chain
entry as a dynamic import. -/
theorem c10_vite_chains_never_dynamic :
    (∀ (g : List ViteModuleNode) (illegal module_types : List String)
      (fuel : Nat) (node : ViteModuleNode) (seen s' : List String)
      (ch : List ImportNode),
      find_illegal_vite_imports g illegal module_types fuel node seen =
        some (some ch, s') →
      ∀ e ∈ ch, e.dynamic = false) ∧
    (∀ (g : List ViteModuleNode) (node : ViteModuleNode)
      (illegal module_types : List String) (ch : List ImportNode),
      prevent_illegal_vite_imports g node illegal module_types = .error ch →
      ∀ e ∈ ch, e.dynamic = false) := by
  constructor
  · intro g illegal module_types fuel node seen s' ch h
    exact find_vite_all_static fuel node seen s' ch h
  · intro g node illegal module_types ch h
    unfold prevent_illegal_vite_imports at h
    cases hfind : find_illegal_vite_imports g illegal (get_module_types module_types)
        (g.length + 2) node [] with
    | none => rw [hfind] at h; exact absurd h (by simp)
    | some p =>
      obtain ⟨r, s⟩ := p
      cases r with
      | none => rw [hfind] at h; exact absurd h (by simp)
      | some chain =>
        rw [hfind] at h
        simp only [Except.error.injEq] at h
        subst h
        exact find_vite_all_static _ node [] s chain hfind

def c10nA : ViteModuleNode := ⟨some "a.js", [1]⟩
def c10nB : ViteModuleNode := ⟨some "b.js", []⟩

/-- Concrete dev-graph run: the chain for `a.js → b.js` with `b.js`
forbidden carries `dynamic: false` on both elements. -/
theorem c10_witness :
    ∀ e ∈ [ImportNode.mk "a.js" false, ⟨"b.js", false⟩], e.dynamic = false :=
  c10_vite_chains_never_dynamic.2 [c10nA, c10nB] c10nA ["b.js"] []
    [⟨"a.js", false⟩, ⟨"b.js", false⟩] (by rfl)

/-! ## Environment loading (`get_env`) -/

/-- JS `String.prototype.startsWith`, modelled as list-prefix on the
character data. -/
def js_startsWith (s p : String) : Bool := p.data.isPrefixOf s.data

/-- Result of `get_env`: the loaded entries split into the public and the
private record.  The JS objects built by `Object.fromEntries` are modelled as
the filtered key-value lists (same key sets). -/
structure Env where
  «public» : List (String × String)
  «private» : List (String × String)
deriving Repr

/-- `get_env` from `src/vite/utils.js`: load the environment entries for
`mode` (`loadEnv` is the external vite collaborator, a parameter here) and
partition them: `public` keeps the keys starting with `pre`, `private` keeps
all the others. -/
def get_env (loadEnv : String → List (String × String)) (mode : String)
    (pre : String) : Env :=
  let entries := loadEnv mode
  { «public» := entries.filter (fun kv => js_startsWith kv.1 pre),
    «private» := entries.filter (fun kv => !js_startsWith kv.1 pre) }

/-- C8: for every mode and prefix, `get_env` partitions the loaded
environment entries: a key appears in the public record exactly when it is a
loaded key starting with the configured prefix, and in the private record
exactly when it is a loaded key that does not; hence the two records are
disjoint and together contain every loaded key. -/
theorem c8_get_env_partitions_env
    (loadEnv : String → List (String × String)) (mode pre k : String) :
    (k ∈ ((get_env loadEnv mode pre).public.map Prod.fst) ↔
      k ∈ ((loadEnv mode).map Prod.fst) ∧ js_startsWith k pre = true) ∧
    (k ∈ ((get_env loadEnv mode pre).private.map Prod.fst) ↔
      k ∈ ((loadEnv mode).map Prod.fst) ∧ js_startsWith k pre = false) ∧
    ¬(k ∈ ((get_env loadEnv mode pre).public.map Prod.fst) ∧
      k ∈ ((get_env loadEnv mode pre).private.map Prod.fst)) ∧
    (k ∈ ((loadEnv mode).map Prod.fst) →
      k ∈ ((get_env loadEnv mode pre).public.map Prod.fst) ∨
      k ∈ ((get_env loadEnv mode pre).private.map Prod.fst)) := by
  have hpub : k ∈ ((get_env loadEnv mode pre).public.map Prod.fst) ↔
      k ∈ ((loadEnv mode).map Prod.fst) ∧ js_startsWith k pre = true := by
    constructor
    · intro hk
      rw [List.mem_map] at hk
      obtain ⟨kv, hkv, rfl⟩ := hk
      simp only [get_env] at hkv
      rw [List.mem_filter] at hkv
      exact ⟨List.mem_map_of_mem _ hkv.1, hkv.2⟩
    · rintro ⟨hk, hp⟩
      rw [List.mem_map] at hk
      obtain ⟨kv, hkv, rfl⟩ := hk
      simp only [get_env]
      exact List.mem_map_of_mem _ (List.mem_filter.mpr ⟨hkv, hp⟩)
  have hpriv : k ∈ ((get_env loadEnv mode pre).private.map Prod.fst) ↔
      k ∈ ((loadEnv mode).map Prod.fst) ∧ js_startsWith k pre = false := by
    constructor
    · intro hk
      rw [List.mem_map] at hk
      obtain ⟨kv, hkv, rfl⟩ := hk
      simp only [get_env] at hkv
      rw [List.mem_filter] at hkv
      refine ⟨List.mem_map_of_mem _ hkv.1, ?_⟩
      have := hkv.2
      simpa using this
    · rintro ⟨hk, hp⟩
      rw [List.mem_map] at hk
      obtain ⟨kv, hkv, rfl⟩ := hk
      simp only [get_env]
      refine List.mem_map_of_mem _ (List.mem_filter.mpr ⟨hkv, ?_⟩)
      simpa using hp
  refine ⟨hpub, hpriv, ?_, ?_⟩
  · rintro ⟨h1, h2⟩
    have e1 := (hpub.mp h1).2
    have e2 := (hpriv.mp h2).2
    rw [e1] at e2
    cases e2
  · intro hk
    cases he : js_startsWith k pre with
    | true => exact Or.inl (hpub.mpr ⟨hk, he⟩)
    | false => exact Or.inr (hpriv.mpr ⟨hk, he⟩)

/-! ## Style collection (`inline_styles` in `src/vite/dev/index.js`) -/

/-- Split a character list at every occurrence of `sep`. -/
def splitOnChar (sep : Char) : List Char → List (List Char)
  | [] => [[]]
  | c :: rest =>
    match splitOnChar sep rest with
    | [] => if c = sep then [[], []] else [[c]]
    | h :: t => if c = sep then [] :: h :: t else (c :: h) :: t

/-- The query pairs of a URL (`new URL(dep.url, 'http://localhost/')
.searchParams`, modelled without percent-decoding): the text between the
first `?` and the following `#`, split at `&`; a segment without `=` maps to
the empty value; empty segments are ignored. -/
def url_query (url : String) : List (String × String) :=
  let after := (url.data.dropWhile (fun c => c ≠ '?')).drop 1
  let q := after.takeWhile (fun c => c ≠ '#')
  ((splitOnChar '&' q).filter (fun seg => seg ≠ [])).map
    (fun seg =>
      (String.mk (seg.takeWhile (fun c => c ≠ '=')),
        String.mk ((seg.dropWhile (fun c => c ≠ '=')).drop 1)))

/-- `searchParams.has(k)`. -/
def query_has (url k : String) : Bool := (url_query url).any (fun p => p.1 = k)

/-- `searchParams.get(k)` (first occurrence). -/
def query_get (url k : String) : Option String :=
  ((url_query url).find? (fun p => p.1 = k)).map Prod.snd

/-- `style_pattern` from `src/vite/dev/index.js`:
`/\.(css|less|sass|scss|styl|stylus|pcss|postcss)$/`. -/
def style_pattern_test (file : String) : Bool :=
  [".css", ".less", ".sass", ".scss", ".styl", ".stylus", ".pcss", ".postcss"].any
    (fun e => e.data.isSuffixOf file.data)

/-- A collected dependency (a vite `ModuleNode` as used by `inline_styles`):
its URL and its file name. -/
structure ViteDep where
  url : String
  file : String
deriving DecidableEq, Repr

/-- The selection condition of `inline_styles`: the dependency's file matches
the stylesheet pattern, or its URL carries the svelte style-marker query
parameters (`svelte` present and `type=style`). -/
def dep_is_style (d : ViteDep) : Bool :=
  style_pattern_test d.file ||
    (query_has d.url "svelte" && (query_get d.url "type" == some "style"))

/-- The loop body of `inline_styles`: for a selected dependency, try to load
the module (`vite.ssrLoadModule`, an external collaborator returning the
module's default export or failing) and record its default export keyed by
URL; a load failure is swallowed (`try … catch {}`) and the styles collected
so far are kept. -/
def inline_styles_step (ssrLoadModule : String → Except Unit String)
    (styles : List (String × String)) (dep : ViteDep) : List (String × String) :=
  if dep_is_style dep then
    match ssrLoadModule dep.url with
    | .ok v => styles ++ [(dep.url, v)]
    | .error _ => styles
  else styles

/-- `inline_styles` from `src/vite/dev/index.js`, given the list of collected
dependencies (`find_deps` output) and the module loader: the styles record,
keyed by URL (the JS object is modelled as the ordered key-value list). -/
def inline_styles (ssrLoadModule : String → Except Unit String)
    (deps : List ViteDep) : List (String × String) :=
  deps.foldl (inline_styles_step ssrLoadModule) []

theorem inline_styles_foldl_mem (ssrLoadModule : String → Except Unit String) :
    ∀ (deps : List ViteDep) (acc : List (String × String)) (url v : String),
      (url, v) ∈ deps.foldl (inline_styles_step ssrLoadModule) acc ↔
        (url, v) ∈ acc ∨
          ∃ d ∈ deps, d.url = url ∧ dep_is_style d = true ∧
            ssrLoadModule url = .ok v := by
  intro deps
  induction deps with
  | nil =>
    intro acc url v
    simp
  | cons d rest ih =>
    intro acc url v
    rw [List.foldl_cons, ih]
    have hstep : (url, v) ∈ inline_styles_step ssrLoadModule acc d ↔
        (url, v) ∈ acc ∨
          (d.url = url ∧ dep_is_style d = true ∧ ssrLoadModule url = .ok v) := by
      unfold inline_styles_step
      by_cases hsty : dep_is_style d
      · rw [if_pos hsty]
        cases hload : ssrLoadModule d.url with
        | ok w =>
          rw [List.mem_append, List.mem_singleton]
          constructor
          · rintro (h1 | h1)
            · exact Or.inl h1
            · injection h1 with e1 e2
              exact Or.inr ⟨e1.symm, hsty, by rw [e1, hload, e2]⟩
          · rintro (h1 | ⟨e1, _, h3⟩)
            · exact Or.inl h1
            · subst e1
              rw [hload] at h3
              injection h3 with e2
              exact Or.inr (by rw [e2])
        | error _ =>
          constructor
          · exact Or.inl
          · rintro (h1 | ⟨e1, _, h3⟩)
            · exact h1
            · subst e1
              rw [hload] at h3
              cases h3
      · rw [if_neg hsty]
        constructor
        · exact Or.inl
        · rintro (h1 | ⟨_, h2, _⟩)
          · exact h1
          · exact absurd h2 hsty
    rw [hstep]
    constructor
    · rintro ((h1 | h1) | ⟨d', hm, hrest⟩)
      · exact Or.inl h1
      · exact Or.inr ⟨d, List.mem_cons_self _ _, h1⟩
      · exact Or.inr ⟨d', List.mem_cons_of_mem _ hm, hrest⟩
    · rintro (h1 | ⟨d', hm, hrest⟩)
      · exact Or.inl (Or.inl h1)
      · rcases List.mem_cons.mp hm with rfl | hm'
        · exact Or.inl (Or.inr hrest)
        · exact Or.inr ⟨d', hm', hrest⟩

/-- C9: `inline_styles` swallows per-dependency module-load failures and
still returns the styles gathered from the dependencies that did load; an
entry `(url, css)` is recorded exactly for collected dependencies whose file
matches a stylesheet extension or whose URL carries the svelte style-marker
query parameters, and whose load succeeded with default export `css`. -/
theorem c9_inline_styles_swallows_failures
    (ssrLoadModule : String → Except Unit String) (deps : List ViteDep)
    (url v : String) :
    (url, v) ∈ inline_styles ssrLoadModule deps ↔
      ∃ d ∈ deps, d.url = url ∧ dep_is_style d = true ∧
        ssrLoadModule url = .ok v := by
  unfold inline_styles
  rw [inline_styles_foldl_mem]
  simp

/-! ## The dev request middleware (`src/vite/dev/index.js`)

The request dispatcher added by `dev()` after server start.  External
collaborators (file system, vite config, `getRequest`, the `respond` render
function and the `serve_static_middleware`) enter the model as the
pre-computed values of the conditions the middleware reads from them. -/

/-- A hooks-shaped JS object with presence-abstracted values: `some ()`
models a truthy value for a property, `none` a missing (or falsy) one,
matching the truthiness tests (`user_hooks.handle || …`, `if (hooks.getContext)`)
applied to these objects. -/
structure HooksObj where
  getSession : Option Unit
  handle : Option Unit
  handleError : Option Unit
  externalFetch : Option Unit
  getContext : Option Unit
  serverFetch : Option Unit
deriving DecidableEq, Repr

/-- The `{}` used when no hooks file resolves. -/
def empty_hooks : HooksObj := ⟨none, none, none, none, none, none⟩

/-- The `hooks` object literal built by the middleware: the four known hooks
with fallbacks (`user_hooks.x || default`, always truthy), and no other
properties — in particular the object literal has no `getContext` or
`serverFetch` property, whatever `user_hooks` exports. -/
def build_hooks (user_hooks : HooksObj) : HooksObj :=
  { getSession := some (user_hooks.getSession.getD ())
    handle := some (user_hooks.handle.getD ())
    handleError := some (user_hooks.handleError.getD ())
    externalFetch := some (user_hooks.externalFetch.getD ())
    getContext := none
    serverFetch := none }

/-- The two migration guards of the middleware, applied (as in the source) to
the constructed `hooks` object: `if (hooks.getContext) throw …` and
`if (hooks.serverFetch) throw …`. -/
def hooks_migration_check (hooks : HooksObj) : Except String Unit :=
  if hooks.getContext.isSome then
    .error "The getContext hook has been removed. See https://kit.svelte.dev/docs/hooks"
  else if hooks.serverFetch.isSome then
    .error "The serverFetch hook has been renamed to externalFetch."
  else .ok ()

/-- The values the request middleware reads from its collaborators. -/
structure DevRequestEnv where
  /-- `fs.existsSync(file) && !fs.statSync(file).isDirectory()` for the
  resolved `posixify(path.resolve(decoded.slice(1)))`. -/
  is_file : Bool
  /-- `!vite_config.server.fs.strict || vite_config.server.fs.allow.some(...)`. -/
  allowed : Bool
  /-- the decoded request pathname. -/
  decoded : String
  /-- `svelte_config.kit.paths.base`. -/
  base : String
  /-- the loaded user hooks module when `resolve_entry` finds one. -/
  hooks_module : Option HooksObj
  /-- whether `getRequest` succeeds. -/
  request_ok : Bool
  /-- the status of the response returned by `respond`. -/
  rendered_status : Nat
  /-- whether `serve_static_middleware` finds a file when consulted as the
  404 fallback (if not, it invokes its `next` callback). -/
  static_hit : Bool
deriving DecidableEq, Repr

/-- How the middleware answers a request. -/
inductive DevResponse
  /-- an on-disk file inside the allow-list, handed to the static middleware. -/
  | servedRawFile
  /-- `not_found(res, "Not found (did you mean …)")` for paths outside `base`. -/
  | notFoundOutsideBase
  /-- a thrown error caught by the outer handler: 500 with the fixed stack. -/
  | internalError (msg : String)
  /-- `getRequest` failed: `err.status || 400`. -/
  | badRequest
  /-- the 404 fallback found a static file and served it. -/
  | servedStaticFallback
  /-- `setResponse(res, rendered)`. -/
  | sentRendered (status : Nat)
deriving DecidableEq, Repr

/-- The request middleware installed by the closure returned from `dev()`
(lines 227–407 of `src/vite/dev/index.js`), as a function from the
collaborator values to the response.  The second component records whether
the underlying static-file responder was consulted as the fallback for the
rendered response. -/
def dev_request_middleware (e : DevRequestEnv) : DevResponse × Bool :=
  if e.is_file && e.allowed then (.servedRawFile, false)
  else if !(js_startsWith e.decoded e.base) then (.notFoundOutsideBase, false)
  else
    let user_hooks := e.hooks_module.getD empty_hooks
    let hooks := build_hooks user_hooks
    match hooks_migration_check hooks with
    | .error msg => (.internalError msg, false)
    | .ok _ =>
      if !e.request_ok then (.badRequest, false)
      else if e.rendered_status = 404 then
        if e.static_hit then (.servedStaticFallback, true)
        else (.sentRendered 404, true)
      else (.sentRendered e.rendered_status, false)

/-- C2 (code evaluation): the migration guards test the freshly constructed
`hooks` object — which never has a `getContext` or `serverFetch` property —
instead of the user hooks module, so they can never fire: for every user
hooks module the check passes, and a request whose hooks module exports
`getContext` (and `serverFetch`) proceeds to render instead of failing fast
with the migration error. -/
theorem c2_migration_check_unreachable :
    (∀ u : HooksObj, hooks_migration_check (build_hooks u) = .ok ()) ∧
    dev_request_middleware
        { is_file := false, allowed := false, decoded := "/x", base := "/",
          hooks_module := some ⟨none, none, none, none, some (), some ()⟩,
          request_ok := true, rendered_status := 200, static_hit := false } =
      (.sentRendered 200, false) := by
  constructor
  · intro u
    rfl
  · rfl

/-- The conditions under which control reaches the `respond` call (stated
from the spec's dispatcher state machine, for comparison with the code):
the request is not an allowed on-disk file, the decoded path is inside
`base`, and the request parses.  (The hooks migration guards never
interrupt, since the constructed hooks object has no legacy properties.) -/
def reaches_render (e : DevRequestEnv) : Bool :=
  !(e.is_file && e.allowed) && js_startsWith e.decoded e.base && e.request_ok

/-- C7: the dispatcher delegates to the underlying static-file responder as a
fallback iff the render function's response has status 404; the rendered 404
body is emitted only when that static serving also misses; and any response
with a non-404 status is sent directly without consulting the static
responder. -/
theorem c7_static_fallback_iff_404 (e : DevRequestEnv) :
    ((dev_request_middleware e).2 = true ↔
      reaches_render e = true ∧ e.rendered_status = 404) ∧
    (reaches_render e = true → e.rendered_status ≠ 404 →
      dev_request_middleware e = (.sentRendered e.rendered_status, false)) ∧
    (reaches_render e = true → e.rendered_status = 404 → e.static_hit = false →
      dev_request_middleware e = (.sentRendered 404, true)) ∧
    (reaches_render e = true → e.rendered_status = 404 → e.static_hit = true →
      dev_request_middleware e = (.servedStaticFallback, true)) := by
  unfold dev_request_middleware reaches_render
  have hmig : hooks_migration_check (build_hooks (e.hooks_module.getD empty_hooks)) =
      .ok () := rfl
  by_cases h1 : (e.is_file && e.allowed) = true
  · simp [h1, hmig]
  · rw [Bool.not_eq_true] at h1
    by_cases h2 : js_startsWith e.decoded e.base = true
    · by_cases h3 : e.request_ok = true
      · by_cases h4 : e.rendered_status = 404
        · cases h5 : e.static_hit <;> simp [h1, h2, h3, h4, h5, hmig]
        · simp [h1, h2, h3, h4, hmig]
      · rw [Bool.not_eq_true] at h3
        simp [h1, h2, h3, hmig]
    · rw [Bool.not_eq_true] at h2
      simp [h1, h2, hmig]

/-- Concrete run: a 404 render with the fallback missing sends the rendered
404 body after consulting the static responder. -/
theorem c7_witness :
    dev_request_middleware
        { is_file := false, allowed := false, decoded := "/a", base := "/",
          hooks_module := none, request_ok := true, rendered_status := 404,
          static_hit := false } =
      (.sentRendered 404, true) :=
  (c7_static_fallback_iff_404
      { is_file := false, allowed := false, decoded := "/a", base := "/",
        hooks_module := none, request_ok := true, rendered_status := 404,
        static_hit := false }).2.2.1 (by rfl) rfl rfl

/-! ## The asset middleware and `has_correct_case` (`src/vite/dev/index.js`) -/

/-- The file-system collaborator (node `fs`) as read by the asset
middleware: existence, directory test and directory listing. -/
structure FileSystem where
  existsSync : String → Bool
  isDirectory : String → Bool
  readdirSync : String → List String

/-- `path.basename` on character data (external node `path` collaborator,
modelled for slash-separated paths without trailing slashes): the part after
the last `/`. -/
def basenameChars (l : List Char) : List Char :=
  (l.reverse.takeWhile (fun c => c != '/')).reverse

/-- `path.dirname` on character data (same modelling domain): the part
before the last `/`; `.` when there is no slash, `/` when the last slash is
leading. -/
def dirnameChars (l : List Char) : List Char :=
  match l.reverse.dropWhile (fun c => c != '/') with
  | [] => ['.']
  | _ :: rest => if rest = [] then ['/'] else rest.reverse

def dirname (p : String) : String := String.mk (dirnameChars p.data)

def basename (p : String) : String := String.mk (basenameChars p.data)

/-- The recursion of `has_correct_case`, with fuel (the JS recursion
terminates because `path.dirname` shortens any path below `assets`; the
wrapper supplies fuel `file.length + 1`, sufficient on such paths). -/
def has_correct_case_go (fsys : FileSystem) (assets : String) : Nat → String → Bool
  | 0, _ => false
  | fuel + 1, file =>
    if file = assets then true
    else if (fsys.readdirSync (dirname file)).contains (basename file) then
      has_correct_case_go fsys assets fuel (dirname file)
    else false

/-- `has_correct_case` from `src/vite/dev/index.js`: walk up from `file` to
the assets directory, requiring at each level that the parent's directory
listing contains the requested basename byte-for-byte. -/
def has_correct_case (fsys : FileSystem) (file assets : String) : Bool :=
  has_correct_case_go fsys assets (file.length + 1) file

/-- JS `String.prototype.slice(n)` (for a non-negative index within the
string), modelled on the character data. -/
def js_slice (s : String) (n : Nat) : String := String.mk (s.data.drop n)

/-- The asset middleware (lines 190–217 of `src/vite/dev/index.js`):
`true` means the request was served through the `asset_server` static
responder; `false` means it fell through to `next()` (not-found handling
further down).  `assets_url` is the URL prefix for assets
(`SVELTE_KIT_ASSETS` or `paths.base`), `assets_dir` is
`svelte_config.kit.files.assets`. -/
def dev_asset_middleware (fsys : FileSystem) (assets_url assets_dir : String)
    (decoded : String) : Bool :=
  if js_startsWith decoded assets_url then
    let pathname := js_slice decoded assets_url.length
    let file := assets_dir ++ pathname
    if fsys.existsSync file && !fsys.isDirectory file then
      has_correct_case fsys file assets_dir
    else false
  else false

/-- `dir/c₁/…/cₙ` built from a directory and path components. -/
def joinPath (dir : String) (comps : List String) : String :=
  comps.foldl (fun acc c => acc ++ "/" ++ c) dir

/-- The spec-side case condition (stated from the spec's words, for
comparison with `has_correct_case`): walking down from the assets directory,
every component's on-disk name (as listed by its parent directory) matches
the requested name byte-for-byte. -/
def caseOk (fsys : FileSystem) (dir : String) : List String → Bool
  | [] => true
  | c :: rest => (fsys.readdirSync dir).contains c && caseOk fsys (dir ++ "/" ++ c) rest

theorem caseOk_nil {fsys : FileSystem} {dir : String} : caseOk fsys dir [] = true := rfl

theorem caseOk_cons {fsys : FileSystem} {dir c : String} {rest : List String} :
    caseOk fsys dir (c :: rest) =
      ((fsys.readdirSync dir).contains c && caseOk fsys (dir ++ "/" ++ c) rest) := rfl

theorem has_correct_case_go_succ (fsys : FileSystem) (assets : String) (k : Nat)
    (file : String) :
    has_correct_case_go fsys assets (k + 1) file =
      if file = assets then true
      else if (fsys.readdirSync (dirname file)).contains (basename file) then
        has_correct_case_go fsys assets k (dirname file)
      else false := rfl

theorem dropWhile_append_all {α : Type} (p : α → Bool) (l₁ l₂ : List α)
    (h : ∀ x ∈ l₁, p x = true) :
    List.dropWhile p (l₁ ++ l₂) = List.dropWhile p l₂ := by
  induction l₁ with
  | nil => rfl
  | cons a l ih =>
    rw [List.cons_append, List.dropWhile_cons_of_pos (h a (List.mem_cons_self a l))]
    exact ih fun x hx => h x (List.mem_cons_of_mem _ hx)

theorem takeWhile_append_all {α : Type} (p : α → Bool) (l₁ l₂ : List α)
    (h : ∀ x ∈ l₁, p x = true) :
    List.takeWhile p (l₁ ++ l₂) = l₁ ++ List.takeWhile p l₂ := by
  induction l₁ with
  | nil => rfl
  | cons a l ih =>
    rw [List.cons_append, List.takeWhile_cons_of_pos (h a (List.mem_cons_self a l)),
      ih fun x hx => h x (List.mem_cons_of_mem _ hx)]
    rfl

theorem data_append_comp (d c : String) :
    (d ++ "/" ++ c).data = d.data ++ '/' :: c.data := by
  rw [String.data_append, String.data_append, List.append_assoc]
  rfl

theorem dirnameChars_append (d c : List Char) (hd : d ≠ [])
    (hc : ∀ x ∈ c, x ≠ '/') :
    dirnameChars (d ++ '/' :: c) = d := by
  unfold dirnameChars
  rw [List.reverse_append, List.reverse_cons, List.append_assoc, List.singleton_append]
  have hall : ∀ x ∈ c.reverse, (x != '/') = true := by
    intro x hx
    rw [List.mem_reverse] at hx
    exact bne_iff_ne.mpr (hc x hx)
  rw [dropWhile_append_all _ _ _ hall, List.dropWhile_cons]
  simp only [bne_self_eq_false, Bool.false_eq_true, if_false]
  have hne : d.reverse ≠ [] := by
    intro h
    exact hd (by simpa using congrArg List.reverse h)
  rw [if_neg hne, List.reverse_reverse]

theorem basenameChars_append (d c : List Char) (hc : ∀ x ∈ c, x ≠ '/') :
    basenameChars (d ++ '/' :: c) = c := by
  unfold basenameChars
  rw [List.reverse_append, List.reverse_cons, List.append_assoc, List.singleton_append]
  have hall : ∀ x ∈ c.reverse, (x != '/') = true := by
    intro x hx
    rw [List.mem_reverse] at hx
    exact bne_iff_ne.mpr (hc x hx)
  rw [takeWhile_append_all _ _ _ hall, List.takeWhile_cons]
  simp only [bne_self_eq_false, Bool.false_eq_true, if_false]
  rw [List.append_nil, List.reverse_reverse]

theorem dirname_append_comp (d c : String) (hd : d ≠ "")
    (hc : ∀ x ∈ c.data, x ≠ '/') :
    dirname (d ++ "/" ++ c) = d := by
  unfold dirname
  have hd' : d.data ≠ [] := by
    intro h
    exact hd (String.ext h)
  rw [data_append_comp, dirnameChars_append d.data c.data hd' hc]

theorem basename_append_comp (d c : String) (hc : ∀ x ∈ c.data, x ≠ '/') :
    basename (d ++ "/" ++ c) = c := by
  unfold basename
  rw [data_append_comp, basenameChars_append d.data c.data hc]

theorem joinPath_nil (dir : String) : joinPath dir [] = dir := rfl

theorem joinPath_cons (dir c : String) (l : List String) :
    joinPath dir (c :: l) = joinPath (dir ++ "/" ++ c) l := rfl

theorem joinPath_snoc (dir c : String) (l : List String) :
    joinPath dir (l ++ [c]) = joinPath dir l ++ "/" ++ c := by
  unfold joinPath
  rw [List.foldl_append]
  rfl

theorem joinPath_length_ge : ∀ (comps : List String) (dir : String),
    dir.length ≤ (joinPath dir comps).length := by
  intro comps
  induction comps with
  | nil => intro dir; exact le_refl _
  | cons c l ih =>
    intro dir
    rw [joinPath_cons]
    refine le_trans ?_ (ih (dir ++ "/" ++ c))
    rw [String.length_append, String.length_append]
    omega

theorem joinPath_shift : ∀ (comps : List String) (a b : String),
    joinPath (a ++ b) comps = a ++ joinPath b comps := by
  intro comps
  induction comps with
  | nil => intro a b; rfl
  | cons c l ih =>
    intro a b
    rw [joinPath_cons, joinPath_cons, String.append_assoc a b "/",
      String.append_assoc a (b ++ "/") c]
    exact ih a (b ++ "/" ++ c)

theorem caseOk_snoc (fsys : FileSystem) :
    ∀ (l : List String) (dir c : String),
      caseOk fsys dir (l ++ [c]) =
        (caseOk fsys dir l && (fsys.readdirSync (joinPath dir l)).contains c) := by
  intro l
  induction l with
  | nil =>
    intro dir c
    rw [List.nil_append, caseOk_cons, caseOk_nil, Bool.and_true, caseOk_nil,
      Bool.true_and, joinPath_nil]
  | cons a l ih =>
    intro dir c
    rw [List.cons_append, caseOk_cons, caseOk_cons, ih, Bool.and_assoc, joinPath_cons]

theorem string_ne_empty_length {d : String} (hd : d ≠ "") : 0 < d.length := by
  have hfoo : d.data ≠ [] := by
    intro h
    exact hd (String.ext h)
  exact List.length_pos.mpr hfoo

/-- `has_correct_case` walks exactly the component-wise case check: on a
path `dir/c₁/…/cₙ` (components without slashes, `dir` nonempty) it returns
`caseOk` of the components. -/
theorem has_correct_case_go_join (fsys : FileSystem) (dir : String) (hdir : dir ≠ "") :
    ∀ (comps : List String), (∀ c ∈ comps, ∀ x ∈ c.data, x ≠ '/') →
      ∀ fuel, (joinPath dir comps).length < fuel →
        has_correct_case_go fsys dir fuel (joinPath dir comps) = caseOk fsys dir comps := by
  intro comps
  induction comps using List.reverseRecOn with
  | nil =>
    intro _ fuel hfuel
    cases fuel with
    | zero => exact absurd hfuel (by omega)
    | succ k =>
      rw [joinPath_nil] at hfuel ⊢
      rw [has_correct_case_go_succ, if_pos rfl, caseOk_nil]
  | append_singleton l c ih =>
    intro hcomp fuel hfuel
    have hcl : ∀ c' ∈ l, ∀ x ∈ c'.data, x ≠ '/' :=
      fun c' h => hcomp c' (List.mem_append_left _ h)
    have hcc : ∀ x ∈ c.data, x ≠ '/' :=
      hcomp c (List.mem_append_right _ (by simp))
    have hjoin : joinPath dir (l ++ [c]) = joinPath dir l ++ "/" ++ c :=
      joinPath_snoc dir c l
    have hDne : joinPath dir l ≠ "" := by
      intro h
      have h1 : dir.length ≤ (joinPath dir l).length := joinPath_length_ge l dir
      rw [h] at h1
      have h2 := string_ne_empty_length hdir
      have h0 : ("" : String).length = 0 := rfl
      rw [h0] at h1
      omega
    have hlen : (joinPath dir l ++ "/" ++ c).length =
        (joinPath dir l).length + 1 + c.length := by
      rw [String.length_append, String.length_append]
      rfl
    cases fuel with
    | zero => exact absurd hfuel (by omega)
    | succ k =>
      rw [hjoin] at hfuel ⊢
      have hne : joinPath dir l ++ "/" ++ c ≠ dir := by
        intro h
        have h1 := congrArg String.length h
        rw [hlen] at h1
        have h2 : dir.length ≤ (joinPath dir l).length := joinPath_length_ge l dir
        omega
      rw [has_correct_case_go_succ, if_neg hne,
        dirname_append_comp (joinPath dir l) c hDne hcc,
        basename_append_comp (joinPath dir l) c hcc,
        caseOk_snoc]
      cases hcont : (fsys.readdirSync (joinPath dir l)).contains c with
      | true =>
        rw [if_pos rfl, Bool.and_true]
        refine ih hcl k ?_
        rw [hlen] at hfuel
        omega
      | false =>
        rw [if_neg (by simp), Bool.and_false]

theorem js_startsWith_append (a b : String) : js_startsWith (a ++ b) a = true := by
  unfold js_startsWith
  rw [String.data_append, List.isPrefixOf_iff_prefix]
  exact List.prefix_append _ _

theorem js_slice_append (a b : String) : js_slice (a ++ b) a.length = b := by
  unfold js_slice
  rw [String.data_append]
  have h : a.length = a.data.length := rfl
  rw [h, List.drop_left]

/-- C6: the asset middleware serves a request through the static asset
responder exactly when the decoded pathname falls under the assets path, the
mapped file exists, is not a directory, and every path component's on-disk
name (as listed by its parent directory) matches the requested name
byte-for-byte in case; when the case differs, the request falls through to
not-found handling instead of being served. -/
theorem c6_asset_middleware_iff_case_ok
    (fsys : FileSystem) (assets_url assets_dir : String) (comps : List String)
    (hdir : assets_dir ≠ "")
    (hcomp : ∀ c ∈ comps, ∀ x ∈ c.data, x ≠ '/') :
    dev_asset_middleware fsys assets_url assets_dir
        (assets_url ++ joinPath "" comps) =
      (fsys.existsSync (joinPath assets_dir comps) &&
        !fsys.isDirectory (joinPath assets_dir comps) &&
        caseOk fsys assets_dir comps) := by
  unfold dev_asset_middleware
  have hfile : assets_dir ++ js_slice (assets_url ++ joinPath "" comps) assets_url.length =
      joinPath assets_dir comps := by
    rw [js_slice_append]
    have h1 : joinPath (assets_dir ++ "") comps = assets_dir ++ joinPath "" comps :=
      joinPath_shift comps assets_dir ""
    rw [String.append_empty] at h1
    exact h1.symm
  rw [js_startsWith_append, if_pos rfl]
  simp only [hfile]
  cases hex : (fsys.existsSync (joinPath assets_dir comps) &&
      !fsys.isDirectory (joinPath assets_dir comps)) with
  | true =>
    rw [if_pos rfl, Bool.true_and]
    unfold has_correct_case
    exact has_correct_case_go_join fsys assets_dir hdir comps hcomp _ (by omega)
  | false =>
    rw [if_neg (by simp), Bool.false_and]

def c6fs : FileSystem :=
  { existsSync := fun _ => true
    isDirectory := fun _ => false
    readdirSync := fun _ => ["X.png"] }

/-- Example from the spec: on a case-insensitive file system the request
`/assets/x.png` maps to an existing file, but the on-disk listing says
`X.png`, so the middleware does not serve it and falls through to not-found
handling. -/
theorem c6_witness :
    dev_asset_middleware c6fs "/assets" "static" ("/assets" ++ joinPath "" ["x.png"]) =
      false :=
  (c6_asset_middleware_iff_case_ok c6fs "/assets" "static" ["x.png"] (by decide)
      (by decide)).trans (by rfl)

/-- The set of module ids occurring in the graph. -/
def idsFinset (g : RollupGraph) : Finset String := (g.map ModuleInfo.id).toFinset

/-- Number of relevant ids (graph ids plus the current node's id) not yet in
`seen`: an upper bound on the remaining recursion depth. -/
def unseenMeasure (g : RollupGraph) (node : ModuleInfo) (seen : List String) : Nat :=
  ((insert node.id (idsFinset g)) \ seen.toFinset).card

theorem unseenMeasure_lt {g : RollupGraph} {c node : ModuleInfo} {seen : List String}
    (hc : c ∈ g) (hname : node.id ∉ seen) :
    unseenMeasure g c (node.id :: seen) < unseenMeasure g node seen := by
  have hcF : c.id ∈ idsFinset g := by
    unfold idsFinset
    rw [List.mem_toFinset]
    exact List.mem_map_of_mem ModuleInfo.id hc
  have hnameB : node.id ∈ insert node.id (idsFinset g) \ seen.toFinset := by
    rw [Finset.mem_sdiff]
    refine ⟨Finset.mem_insert_self _ _, ?_⟩
    rw [List.mem_toFinset]
    exact hname
  have hsub : (insert c.id (idsFinset g)) \ (node.id :: seen).toFinset ⊆
      ((insert node.id (idsFinset g)) \ seen.toFinset).erase node.id := by
    intro x hx
    rw [Finset.mem_sdiff] at hx
    obtain ⟨hx1, hx2⟩ := hx
    rw [List.toFinset_cons, Finset.mem_insert, not_or] at hx2
    obtain ⟨hxne, hxseen⟩ := hx2
    rw [Finset.mem_erase]
    refine ⟨hxne, ?_⟩
    rw [Finset.mem_sdiff]
    refine ⟨?_, hxseen⟩
    rw [Finset.insert_eq_self.mpr hcF] at hx1
    exact Finset.mem_insert_of_mem hx1
  calc ((insert c.id (idsFinset g)) \ (node.id :: seen).toFinset).card
      ≤ (((insert node.id (idsFinset g)) \ seen.toFinset).erase node.id).card :=
        Finset.card_le_card hsub
    _ = ((insert node.id (idsFinset g)) \ seen.toFinset).card - 1 :=
        Finset.card_erase_of_mem hnameB
    _ < ((insert node.id (idsFinset g)) \ seen.toFinset).card :=
        Nat.sub_lt (Finset.card_pos.mpr ⟨node.id, hnameB⟩) Nat.one_pos

theorem go_children_isSome {g : RollupGraph}
    {f : ModuleInfo → Bool → List String → SearchResult}
    (Hres : ∀ c d s s', f c d s = some (none, s') → s' = s) {seen : List String} :
    ∀ (l : List (String × Bool)),
      (∀ id d c, (id, d) ∈ l → node_getter g id = some c → (f c d seen).isSome) →
      (go_children g f l seen).isSome := by
  intro l
  induction l with
  | nil => intro _; rw [go_children_nil]; rfl
  | cons hd tl ihl =>
    obtain ⟨id, d⟩ := hd
    intro Hcall
    cases hget : node_getter g id with
    | none =>
      rw [go_children_skip hget]
      exact ihl fun i dd c hm hg => Hcall i dd c (List.mem_cons_of_mem _ hm) hg
    | some child =>
      have hsome : (f child d seen).isSome :=
        Hcall id d child (List.mem_cons_self _ _) hget
      rw [Option.isSome_iff_exists] at hsome
      obtain ⟨p, hp⟩ := hsome
      obtain ⟨r, s2⟩ := p
      cases r with
      | none =>
        have hs2 : s2 = seen := Hres child d seen s2 hp
        subst hs2
        rw [go_children_cont hget hp]
        exact ihl fun i dd c hm hg => Hcall i dd c (List.mem_cons_of_mem _ hm) hg
      | some chain =>
        rw [go_children_found hget hp]
        rfl

/-- Fuel above the `unseenMeasure` never runs out. -/
theorem find_rollup_isSome {g : RollupGraph} {illegal : List String} :
    ∀ (fuel : Nat) (node : ModuleInfo) (dyn : Bool) (seen : List String),
      unseenMeasure g node seen < fuel →
      (find_illegal_rollup_imports g illegal fuel node dyn seen).isSome := by
  intro fuel
  induction fuel with
  | zero => intro node dyn seen h; exact absurd h (Nat.not_lt_zero _)
  | succ n ih =>
    intro node dyn seen hfuel
    by_cases hseen : node.id ∈ seen
    · rw [find_rollup_seen hseen]; rfl
    · by_cases hill : node.id ∈ illegal
      · rw [find_rollup_illegal hseen hill]; rfl
      · have hgo : (go_children g
            (fun c d s => find_illegal_rollup_imports g illegal n c d s)
            (rollup_children node) (node.id :: seen)).isSome := by
          refine go_children_isSome (fun c d s s' hf => find_rollup_restore n c d s s' hf) _ ?_
          intro id d c _ hget
          refine ih c d (node.id :: seen) ?_
          have h1 : unseenMeasure g c (node.id :: seen) < unseenMeasure g node seen :=
            unseenMeasure_lt (node_getter_mem hget) hseen
          omega
        rw [Option.isSome_iff_exists] at hgo
        obtain ⟨p, hp⟩ := hgo
        obtain ⟨r, s2⟩ := p
        cases r with
        | none => rw [find_rollup_go_clean hseen hill hp]; rfl
        | some chain => rw [find_rollup_go_found hseen hill hp]; rfl

/-- The fuel supplied by the entry points is always sufficient. -/
theorem find_rollup_top_isSome (g : RollupGraph) (illegal : List String)
    (node : ModuleInfo) :
    (find_illegal_rollup_imports g illegal (rollupFuel g) node false []).isSome := by
  refine find_rollup_isSome _ node false [] ?_
  unfold unseenMeasure rollupFuel
  have h1 : ((insert node.id (idsFinset g)) \ ([] : List String).toFinset).card ≤
      (insert node.id (idsFinset g)).card := Finset.card_le_card (Finset.sdiff_subset)
  have h2 : (insert node.id (idsFinset g)).card ≤ (idsFinset g).card + 1 :=
    Finset.card_insert_le _ _
  have h3 : (idsFinset g).card ≤ g.length := by
    unfold idsFinset
    calc (g.map ModuleInfo.id).toFinset.card ≤ (g.map ModuleInfo.id).length :=
          List.toFinset_card_le _
      _ = g.length := List.length_map _ _
  omega

theorem mem_rollup_children {node : ModuleInfo} {id : String} {d : Bool} :
    (id, d) ∈ rollup_children node ↔
      (d = false ∧ id ∈ node.importedIds) ∨ (d = true ∧ id ∈ node.dynamicallyImportedIds) := by
  simp only [rollup_children, List.mem_append, List.mem_map, Prod.mk.injEq]
  constructor
  · rintro (⟨i, hi, rfl, rfl⟩ | ⟨i, hi, rfl, rfl⟩)
    · exact Or.inl ⟨rfl, hi⟩
    · exact Or.inr ⟨rfl, hi⟩
  · rintro (⟨rfl, hi⟩ | ⟨rfl, hi⟩)
    · exact Or.inl ⟨id, hi, rfl, rfl⟩
    · exact Or.inr ⟨id, hi, rfl, rfl⟩

/-- If the children loop finds a chain, some listed child produced that chain
(at some intermediate state of `seen`). -/
theorem go_children_sound {g : RollupGraph}
    {f : ModuleInfo → Bool → List String → SearchResult} :
    ∀ (l : List (String × Bool)) (seen s' : List String) (ch : List ImportNode),
      go_children g f l seen = some (some ch, s') →
      ∃ id d c s0 s1, (id, d) ∈ l ∧ node_getter g id = some c ∧
        f c d s0 = some (some ch, s1) := by
  intro l
  induction l with
  | nil => intro seen s' ch h; rw [go_children_nil] at h; cases h
  | cons hd tl ihl =>
    obtain ⟨id, d⟩ := hd
    intro seen s' ch h
    cases hget : node_getter g id with
    | none =>
      rw [go_children_skip hget] at h
      obtain ⟨i, dd, c, s0, s1, hm, hg, hf⟩ := ihl seen s' ch h
      exact ⟨i, dd, c, s0, s1, List.mem_cons_of_mem _ hm, hg, hf⟩
    | some child =>
      cases hf : f child d seen with
      | none => rw [go_children_fuel_out hget hf] at h; cases h
      | some p =>
        obtain ⟨r, s2⟩ := p
        cases r with
        | none =>
          rw [go_children_cont hget hf] at h
          obtain ⟨i, dd, c, s0, s1, hm, hg, hf'⟩ := ihl s2 s' ch h
          exact ⟨i, dd, c, s0, s1, List.mem_cons_of_mem _ hm, hg, hf'⟩
        | some chain2 =>
          rw [go_children_found hget hf] at h
          cases h
          exact ⟨id, d, child, seen, _, List.mem_cons_self _ _, hget, hf⟩

/-- Soundness: a chain reported by the search is a genuine import chain. -/
theorem find_rollup_sound {g : RollupGraph} {illegal : List String} :
    ∀ (fuel : Nat) (node : ModuleInfo) (dyn : Bool) (seen s' : List String)
      (ch : List ImportNode),
      find_illegal_rollup_imports g illegal fuel node dyn seen = some (some ch, s') →
      IsImportChain g illegal node dyn ch := by
  intro fuel
  induction fuel with
  | zero => intro node dyn seen s' ch h; rw [find_rollup_zero] at h; cases h
  | succ n ih =>
    intro node dyn seen s' ch h
    by_cases hseen : node.id ∈ seen
    · rw [find_rollup_seen hseen] at h; cases h
    · by_cases hill : node.id ∈ illegal
      · rw [find_rollup_illegal hseen hill] at h
        cases h
        exact IsImportChain.last hill
      · cases hgo : go_children g
            (fun c d s => find_illegal_rollup_imports g illegal n c d s)
            (rollup_children node) (node.id :: seen) with
        | none => rw [find_rollup_go_none hseen hill hgo] at h; cases h
        | some p =>
          obtain ⟨r, s2⟩ := p
          cases r with
          | none => rw [find_rollup_go_clean hseen hill hgo] at h; cases h
          | some chain =>
            rw [find_rollup_go_found hseen hill hgo] at h
            cases h
            obtain ⟨i, dd, c, s0, s1, hm, hg, hf⟩ :=
              go_children_sound _ _ _ _ hgo
            exact IsImportChain.cons hill (mem_rollup_children.mp hm) hg
              (ih c dd s0 s1 chain hf)

theorem node_unique {g : RollupGraph} (hnodup : (g.map ModuleInfo.id).Nodup)
    {a b : ModuleInfo} (ha : a ∈ g) (hb : b ∈ g) (hid : a.id = b.id) : a = b :=
  List.inj_on_of_nodup_map hnodup ha hb hid

/-- Dichotomy used for completeness: a walk avoiding `seen` either also
avoids one extra id `x`, or it passes through a graph node named `x`, giving
a no-longer walk from that node. -/
theorem ROn_avoid_or_hits {g : RollupGraph} {illegal seen : List String} (x : String) :
    ∀ {k : Nat} {c : ModuleInfo}, ROn g illegal seen k c → c ∈ g →
      ROn g illegal (x :: seen) k c ∨
      ∃ j c', j ≤ k ∧ c' ∈ g ∧ c'.id = x ∧ ROn g illegal seen j c' := by
  intro k c h
  induction h with
  | @here k node hns hil =>
    intro hmem
    by_cases hx : node.id = x
    · exact Or.inr ⟨0, node, Nat.zero_le _, hmem, hx, ROn.here hns hil⟩
    · refine Or.inl (ROn.here ?_ hil)
      intro hc
      rcases List.mem_cons.mp hc with h1 | h1
      · exact hx h1
      · exact hns h1
  | @step k node child id hns hedge hget hchild ih =>
    intro hmem
    by_cases hx : node.id = x
    · exact Or.inr ⟨k + 1, node, le_refl _, hmem, hx, ROn.step hns hedge hget hchild⟩
    · rcases ih (node_getter_mem hget) with hL | ⟨j, c', hj, hc'g, hc'id, hr⟩
      · refine Or.inl (ROn.step ?_ hedge hget hL)
        intro hc
        rcases List.mem_cons.mp hc with h1 | h1
        · exact hx h1
        · exact hns h1
      · exact Or.inr ⟨j, c', Nat.le_succ_of_le hj, hc'g, hc'id, hr⟩

/-- If the children loop came back with no violation, then every resolvable
listed child's step returned no violation from the loop's entry state. -/
theorem go_children_all_none {g : RollupGraph}
    {f : ModuleInfo → Bool → List String → SearchResult}
    (Hres : ∀ c d s s', f c d s = some (none, s') → s' = s) :
    ∀ (l : List (String × Bool)) (seen s' : List String),
      go_children g f l seen = some (none, s') →
      ∀ id d c, (id, d) ∈ l → node_getter g id = some c →
        f c d seen = some (none, seen) := by
  intro l
  induction l with
  | nil => intro seen s' _ id d c hm _; cases hm
  | cons hd tl ihl =>
    obtain ⟨id0, d0⟩ := hd
    intro seen s' hgo id d c hm hget
    cases hget0 : node_getter g id0 with
    | none =>
      rw [go_children_skip hget0] at hgo
      rcases List.mem_cons.mp hm with h1 | h1
      · cases h1; rw [hget] at hget0; cases hget0
      · exact ihl seen s' hgo id d c h1 hget
    | some child0 =>
      cases hf0 : f child0 d0 seen with
      | none => rw [go_children_fuel_out hget0 hf0] at hgo; cases hgo
      | some p =>
        obtain ⟨r, s2⟩ := p
        cases r with
        | some chain => rw [go_children_found hget0 hf0] at hgo; cases hgo
        | none =>
          have hs2 : s2 = seen := Hres child0 d0 seen s2 hf0
          rw [hs2] at hf0
          rw [go_children_cont hget0 hf0] at hgo
          rcases List.mem_cons.mp hm with h1 | h1
          · cases h1
            rw [hget] at hget0
            cases hget0
            exact hf0
          · exact ihl seen s' hgo id d c h1 hget

/-- Completeness invariant: a no-violation return from a graph node means no
walk from it, avoiding the entry `seen` set, reaches a forbidden id. -/
theorem find_rollup_none_not_ROn {g : RollupGraph} {illegal : List String}
    (hnodup : (g.map ModuleInfo.id).Nodup) :
    ∀ (k fuel : Nat) (node : ModuleInfo) (dyn : Bool) (seen s' : List String),
      node ∈ g →
      find_illegal_rollup_imports g illegal fuel node dyn seen = some (none, s') →
      ¬ ROn g illegal seen k node := by
  intro k
  induction k using Nat.strong_induction_on with
  | _ k ihk =>
    intro fuel node dyn seen s' hmem heq hro
    cases fuel with
    | zero => rw [find_rollup_zero] at heq; cases heq
    | succ n =>
      by_cases hseen : node.id ∈ seen
      · cases hro with
        | here hns _ => exact hns hseen
        | step hns _ _ _ => exact hns hseen
      · by_cases hill : node.id ∈ illegal
        · rw [find_rollup_illegal hseen hill] at heq; cases heq
        · cases hgo : go_children g
              (fun c d s => find_illegal_rollup_imports g illegal n c d s)
              (rollup_children node) (node.id :: seen) with
          | none => rw [find_rollup_go_none hseen hill hgo] at heq; cases heq
          | some p =>
            obtain ⟨r, s2⟩ := p
            cases r with
            | some chain => rw [find_rollup_go_found hseen hill hgo] at heq; cases heq
            | none =>
              cases hro with
              | here _ hil => exact hill hil
              | @step k0 _ child id hns hedge hget hchild =>
                have hchildmem : child ∈ g := node_getter_mem hget
                rcases ROn_avoid_or_hits node.id hchild hchildmem with
                  hL | ⟨j, c', hj, hc'g, hc'id, hr⟩
                · have hd : ∃ d, (id, d) ∈ rollup_children node := by
                    rcases hedge with h1 | h1
                    · exact ⟨false, mem_rollup_children.mpr (Or.inl ⟨rfl, h1⟩)⟩
                    · exact ⟨true, mem_rollup_children.mpr (Or.inr ⟨rfl, h1⟩)⟩
                  obtain ⟨d, hdm⟩ := hd
                  have hfc : find_illegal_rollup_imports g illegal n child d
                      (node.id :: seen) = some (none, node.id :: seen) :=
                    go_children_all_none
                      (fun c dd s ss hf => find_rollup_restore n c dd s ss hf)
                      _ _ _ hgo id d child hdm hget
                  exact ihk k0 (Nat.lt_succ_self _) n child d (node.id :: seen)
                    (node.id :: seen) hchildmem hfc hL
                · have hc'node : c' = node := node_unique hnodup hc'g hmem hc'id
                  subst hc'node
                  exact ihk j (Nat.lt_succ_of_le hj) (n + 1) c' dyn seen s'
                    hmem heq hr

/-- C1: `prevent_illegal_rollup_imports` throws an illegal-import error if
and only if some member of the forbidden set is transitively reachable from
the root node via static or dynamic import edges; in particular, when no path
from the root reaches a forbidden id, the check returns normally with no
violation (for any finite module graph, cycles allowed, with well-formed
distinct ids and the root a node of the graph). -/
theorem c1_prevent_illegal_rollup_imports_iff_reaches
    (g : RollupGraph) (node : ModuleInfo) (illegal : List String)
    (hnodup : (g.map ModuleInfo.id).Nodup) (hmem : node ∈ g) :
    (∃ e, prevent_illegal_rollup_imports g node illegal = .error e) ↔
      Reaches g illegal node := by
  constructor
  · rintro ⟨e, he⟩
    unfold prevent_illegal_rollup_imports at he
    cases hfind : find_illegal_rollup_imports g illegal (rollupFuel g) node false [] with
    | none => rw [hfind] at he; exact absurd he (by simp)
    | some p =>
      obtain ⟨r, s⟩ := p
      cases r with
      | none => rw [hfind] at he; exact absurd he (by simp)
      | some chain =>
        exact (find_rollup_sound _ node false [] s chain hfind).chain_reaches
  · intro hre
    have hs := find_rollup_top_isSome g illegal node
    rw [Option.isSome_iff_exists] at hs
    obtain ⟨p, hp⟩ := hs
    obtain ⟨r, s⟩ := p
    cases r with
    | none =>
      obtain ⟨k, hk⟩ := hre.ron
      exact absurd hk (find_rollup_none_not_ROn hnodup k _ node false [] s hmem hp)
    | some chain =>
      refine ⟨chain, ?_⟩
      unfold prevent_illegal_rollup_imports
      rw [hp]

def c1nA : ModuleInfo := ⟨"A", ["B"], []⟩
def c1nB : ModuleInfo := ⟨"B", ["A"], ["C"]⟩
def c1nC : ModuleInfo := ⟨"C", [], []⟩

/-- A cyclic graph (`A → B → A`, plus a dynamic edge `B → C`): the checker
throws, so `C` is reachable from `A`. -/
theorem c1_witness : Reaches [c1nA, c1nB, c1nC] ["C"] c1nA :=
  (c1_prevent_illegal_rollup_imports_iff_reaches [c1nA, c1nB, c1nC] c1nA ["C"]
      (by decide) (by decide)).mp
    ⟨[⟨"A", false⟩, ⟨"B", false⟩, ⟨"C", true⟩], by rfl⟩

/-- C4: if there is exactly one import chain from the root to a forbidden id
and it consists only of static edges, the checker returns exactly that chain,
with `dynamic: false` on every element. -/
theorem c4_unique_static_path_returned
    (g : RollupGraph) (node : ModuleInfo) (illegal : List String)
    (P : List ImportNode)
    (hnodup : (g.map ModuleInfo.id).Nodup) (hmem : node ∈ g)
    (hP : IsImportChain g illegal node false P)
    (hstatic : ∀ e ∈ P, e.dynamic = false)
    (huniq : ∀ Q, IsImportChain g illegal node false Q → Q = P) :
    prevent_illegal_rollup_imports g node illegal = .error P ∧
      ∀ e ∈ P, e.dynamic = false := by
  have hre : Reaches g illegal node := hP.chain_reaches
  have hs := find_rollup_top_isSome g illegal node
  rw [Option.isSome_iff_exists] at hs
  obtain ⟨p, hp⟩ := hs
  obtain ⟨r, s⟩ := p
  cases r with
  | none =>
    obtain ⟨k, hk⟩ := hre.ron
    exact absurd hk (find_rollup_none_not_ROn hnodup k _ node false [] s hmem hp)
  | some chain =>
    have hQ : chain = P := huniq chain (find_rollup_sound _ node false [] s chain hp)
    subst hQ
    refine ⟨?_, hstatic⟩
    unfold prevent_illegal_rollup_imports
    rw [hp]

def c4nA : ModuleInfo := ⟨"A", ["B"], []⟩
def c4nB : ModuleInfo := ⟨"B", ["C"], []⟩
def c4nC : ModuleInfo := ⟨"C", [], []⟩

/-- In the graph `A → B → C` (all static) with forbidden `{C}`, the chain
`[{A,false},{B,false},{C,false}]` is the only import chain from `A`. -/
theorem c4_unique_chain_example :
    ∀ Q, IsImportChain [c4nA, c4nB, c4nC] ["C"] c4nA false Q →
      Q = [⟨"A", false⟩, ⟨"B", false⟩, ⟨"C", false⟩] := by
  intro Q hQ
  cases hQ with
  | last hil => exact absurd hil (by decide)
  | @cons _ child _ d id rest hnill hedge hget hrest =>
    have hidB : id = "B" ∧ d = false := by
      rcases hedge with ⟨hd, hid⟩ | ⟨hd, hid⟩
      · refine ⟨?_, hd⟩
        simpa [c4nA] using hid
      · exact absurd hid (by simp [c4nA])
    obtain ⟨hid1, hd1⟩ := hidB
    subst hid1
    subst hd1
    have h2 : node_getter [c4nA, c4nB, c4nC] "B" = some c4nB := by rfl
    rw [h2] at hget
    injection hget with hchild
    subst hchild
    cases hrest with
    | last hil2 => exact absurd hil2 (by decide)
    | @cons _ child2 _ d2 id2 rest2 hnill2 hedge2 hget2 hrest2 =>
      have hidC : id2 = "C" ∧ d2 = false := by
        rcases hedge2 with ⟨hd, hid⟩ | ⟨hd, hid⟩
        · refine ⟨?_, hd⟩
          simpa [c4nB] using hid
        · exact absurd hid (by simp [c4nB])
      obtain ⟨hid2, hd2⟩ := hidC
      subst hid2
      subst hd2
      have h3 : node_getter [c4nA, c4nB, c4nC] "C" = some c4nC := by rfl
      rw [h3] at hget2
      injection hget2 with hchild2
      subst hchild2
      cases hrest2 with
      | last hil3 => rfl
      | cons hnill3 hedge3 hget3 hrest3 => exact absurd (by decide) hnill3

/-- Example from the spec: graph `A → B → C`, all edges static, forbidden
`{C}`: the returned chain is `[{A,false},{B,false},{C,false}]`. -/
theorem c4_witness :
    prevent_illegal_rollup_imports [c4nA, c4nB, c4nC] c4nA ["C"] =
        .error [⟨"A", false⟩, ⟨"B", false⟩, ⟨"C", false⟩] ∧
      ∀ e ∈ [ImportNode.mk "A" false, ⟨"B", false⟩, ⟨"C", false⟩],
        e.dynamic = false :=
  c4_unique_static_path_returned [c4nA, c4nB, c4nC] c4nA ["C"]
    [⟨"A", false⟩, ⟨"B", false⟩, ⟨"C", false⟩] (by decide) (by decide)
    (@IsImportChain.cons [c4nA, c4nB, c4nC] ["C"] c4nA c4nB false false "B"
      [⟨"B", false⟩, ⟨"C", false⟩] (by decide) (Or.inl ⟨rfl, by decide⟩) (by rfl)
      (@IsImportChain.cons [c4nA, c4nB, c4nC] ["C"] c4nB c4nC false false "C"
        [⟨"C", false⟩] (by decide) (Or.inl ⟨rfl, by decide⟩) (by rfl)
        (IsImportChain.last (by decide))))
    (by decide) c4_unique_chain_example

/-- If some statically-listed child (the first block of the loop) yields a
chain, the loop's answer is produced by a statically-listed child, before any
element of the second block is considered. -/
theorem go_children_first_success {g : RollupGraph}
    {f : ModuleInfo → Bool → List String → SearchResult}
    (Hres : ∀ c d s s', f c d s = some (none, s') → s' = s) (seen : List String) :
    ∀ (l1 : List String) (l2 : List (String × Bool)),
      (∀ id c, id ∈ l1 → node_getter g id = some c → (f c false seen).isSome) →
      (∃ id c ch s', id ∈ l1 ∧ node_getter g id = some c ∧
        f c false seen = some (some ch, s')) →
      ∃ ch s', go_children g f (l1.map (fun i => (i, false)) ++ l2) seen =
          some (some ch, s') ∧
        ∃ id c, id ∈ l1 ∧ node_getter g id = some c ∧
          f c false seen = some (some ch, s') := by
  intro l1
  induction l1 with
  | nil =>
    intro l2 _ hsucc
    obtain ⟨id, _, _, _, hm, _⟩ := hsucc
    cases hm
  | cons a l1' ihl =>
    intro l2 hcall hsucc
    cases hget : node_getter g a with
    | none =>
      have hgo : go_children g f ((a :: l1').map (fun i => (i, false)) ++ l2) seen =
          go_children g f (l1'.map (fun i => (i, false)) ++ l2) seen :=
        go_children_skip hget
      have hsucc' : ∃ id c ch s', id ∈ l1' ∧ node_getter g id = some c ∧
          f c false seen = some (some ch, s') := by
        obtain ⟨id, c, ch, s', hm, hg, hf⟩ := hsucc
        rcases List.mem_cons.mp hm with rfl | h1
        · rw [hget] at hg; cases hg
        · exact ⟨id, c, ch, s', h1, hg, hf⟩
      obtain ⟨ch, s', heq, id, c, hm, hg, hf⟩ :=
        ihl l2 (fun i c hm hg => hcall i c (List.mem_cons_of_mem _ hm) hg) hsucc'
      exact ⟨ch, s', by rw [hgo]; exact heq,
        id, c, List.mem_cons_of_mem _ hm, hg, hf⟩
    | some c0 =>
      have h0 : (f c0 false seen).isSome :=
        hcall a c0 (List.mem_cons_self _ _) hget
      rw [Option.isSome_iff_exists] at h0
      obtain ⟨p, hp⟩ := h0
      obtain ⟨r, s0⟩ := p
      cases r with
      | some ch0 =>
        exact ⟨ch0, s0, go_children_found hget hp,
          a, c0, List.mem_cons_self _ _, hget, hp⟩
      | none =>
        have hs0 : s0 = seen := Hres c0 false seen s0 hp
        rw [hs0] at hp
        have hgo : go_children g f ((a :: l1').map (fun i => (i, false)) ++ l2) seen =
            go_children g f (l1'.map (fun i => (i, false)) ++ l2) seen :=
          go_children_cont hget hp
        have hsucc' : ∃ id c ch s', id ∈ l1' ∧ node_getter g id = some c ∧
            f c false seen = some (some ch, s') := by
          obtain ⟨id, c, ch, s', hm, hg, hf⟩ := hsucc
          rcases List.mem_cons.mp hm with rfl | h1
          · rw [hget] at hg
            injection hg with hg
            subst hg
            rw [hp] at hf
            cases hf
          · exact ⟨id, c, ch, s', h1, hg, hf⟩
        obtain ⟨ch, s', heq, id, c, hm, hg, hf⟩ :=
          ihl l2 (fun i c hm hg => hcall i c (List.mem_cons_of_mem _ hm) hg) hsucc'
        exact ⟨ch, s', by rw [hgo]; exact heq,
          id, c, List.mem_cons_of_mem _ hm, hg, hf⟩

/-- C5: the checker recurses into static imports before dynamic imports, so
when the root reaches forbidden ids both through a static child and through a
dynamic child, the returned chain goes through a static child: its second
element is tagged `dynamic: false`. -/
theorem c5_static_imports_searched_first
    (g : RollupGraph) (node : ModuleInfo) (illegal : List String)
    (hnodup : (g.map ModuleInfo.id).Nodup)
    (hnill : node.id ∉ illegal)
    (hstat : ∃ id child k, id ∈ node.importedIds ∧ node_getter g id = some child ∧
      ROn g illegal [node.id] k child) :
    ∃ ch s, find_illegal_rollup_imports g illegal (rollupFuel g) node false [] =
        some (some (⟨node.id, false⟩ :: ch), s) ∧
      ∃ e rest, ch = e :: rest ∧ e.dynamic = false := by
  obtain ⟨idS, childS, kS, hidm, hgetS, hroS⟩ := hstat
  have hnseen : node.id ∉ ([] : List String) := List.not_mem_nil _
  have hmeas : ∀ c : ModuleInfo, c ∈ g →
      unseenMeasure g c [node.id] < g.length + 1 := by
    intro c hc
    have hcF : c.id ∈ idsFinset g := by
      unfold idsFinset
      rw [List.mem_toFinset]
      exact List.mem_map_of_mem ModuleInfo.id hc
    have h1 : unseenMeasure g c [node.id] ≤ (idsFinset g).card := by
      unfold unseenMeasure
      calc ((insert c.id (idsFinset g)) \ [node.id].toFinset).card
          ≤ (insert c.id (idsFinset g)).card := Finset.card_le_card Finset.sdiff_subset
        _ = (idsFinset g).card := by rw [Finset.insert_eq_self.mpr hcF]
    have h2 : (idsFinset g).card ≤ g.length := by
      unfold idsFinset
      calc (g.map ModuleInfo.id).toFinset.card ≤ (g.map ModuleInfo.id).length :=
            List.toFinset_card_le _
        _ = g.length := List.length_map _ _
    omega
  have hcall : ∀ id c, id ∈ node.importedIds → node_getter g id = some c →
      (find_illegal_rollup_imports g illegal (g.length + 1) c false [node.id]).isSome := by
    intro id c _ hget
    exact find_rollup_isSome _ c false [node.id] (hmeas c (node_getter_mem hget))
  have hsucc : ∃ id c ch s', id ∈ node.importedIds ∧ node_getter g id = some c ∧
      find_illegal_rollup_imports g illegal (g.length + 1) c false [node.id] =
        some (some ch, s') := by
    have hS := hcall idS childS hidm hgetS
    rw [Option.isSome_iff_exists] at hS
    obtain ⟨p, hp⟩ := hS
    obtain ⟨r, s0⟩ := p
    cases r with
    | none =>
      exact absurd hroS (find_rollup_none_not_ROn hnodup kS _ childS false
        [node.id] s0 (node_getter_mem hgetS) hp)
    | some ch => exact ⟨idS, childS, ch, s0, hidm, hgetS, hp⟩
  obtain ⟨ch, s', hgoeq, id', c', hm', hg', hf'⟩ :=
    go_children_first_success
      (fun c d s ss hf => find_rollup_restore (g.length + 1) c d s ss hf)
      [node.id] node.importedIds
      (node.dynamicallyImportedIds.map (fun i => (i, true))) hcall hsucc
  have hfind : find_illegal_rollup_imports g illegal (rollupFuel g) node false [] =
      some (some (⟨node.id, false⟩ :: ch), s') :=
    find_rollup_go_found hnseen hnill hgoeq
  obtain ⟨rest, hrest⟩ :=
    (find_rollup_sound (g.length + 1) c' false [node.id] s' ch hf').head_eq
  exact ⟨ch, s', hfind, ⟨c'.id, false⟩, rest, hrest, rfl⟩

def c5nA : ModuleInfo := ⟨"A", ["B"], ["D"]⟩
def c5nB : ModuleInfo := ⟨"B", ["C"], []⟩
def c5nC : ModuleInfo := ⟨"C", [], []⟩
def c5nD : ModuleInfo := ⟨"D", ["C"], []⟩

/-- In the graph where `A` imports `B` statically and `D` dynamically, and
both `B` and `D` import the forbidden `C`, the returned chain goes through
the static child `B`. -/
theorem c5_witness :
    ∃ ch s,
      find_illegal_rollup_imports [c5nA, c5nB, c5nC, c5nD] ["C"]
          (rollupFuel [c5nA, c5nB, c5nC, c5nD]) c5nA false [] =
        some (some (⟨c5nA.id, false⟩ :: ch), s) ∧
      ∃ e rest, ch = e :: rest ∧ e.dynamic = false :=
  c5_static_imports_searched_first [c5nA, c5nB, c5nC, c5nD] c5nA ["C"]
    (by decide) (by decide)
    ⟨"B", c5nB, 1, by decide, by rfl,
      @ROn.step [c5nA, c5nB, c5nC, c5nD] ["C"] [c5nA.id] 0 c5nB c5nC "C"
        (by decide) (Or.inl (by decide)) (by rfl)
        (@ROn.here [c5nA, c5nB, c5nC, c5nD] ["C"] [c5nA.id] 0 c5nC
          (by decide) (by decide))⟩

/-- C3: whenever the build-graph checker returns a chain, the chain is a
genuine import chain: each element after the root is tagged `dynamic: true`
exactly when the import edge leading into that node was a dynamic import
(`IsImportChain` records, for every element, that its tag equals the kind of
the edge leading into it), and the root's entry is never dynamic (the chain's
head is the root tagged `false`). -/
theorem c3_chain_flags_match_edges
    (g : RollupGraph) (node : ModuleInfo) (illegal : List String)
    (chain : List ImportNode)
    (h : prevent_illegal_rollup_imports g node illegal = .error chain) :
    IsImportChain g illegal node false chain ∧
      ∃ rest, chain = ⟨node.id, false⟩ :: rest := by
  unfold prevent_illegal_rollup_imports at h
  cases hfind : find_illegal_rollup_imports g illegal (rollupFuel g) node false [] with
  | none => rw [hfind] at h; exact absurd h (by simp)
  | some p =>
    obtain ⟨r, s⟩ := p
    cases r with
    | none => rw [hfind] at h; exact absurd h (by simp)
    | some ch =>
      rw [hfind] at h
      simp only [Except.error.injEq] at h
      subst h
      have hic := find_rollup_sound _ node false [] s ch hfind
      exact ⟨hic, hic.head_eq⟩

def c3nA : ModuleInfo := ⟨"A", ["B"], []⟩
def c3nB : ModuleInfo := ⟨"B", [], ["C"]⟩
def c3nC : ModuleInfo := ⟨"C", [], []⟩

/-- Example from the spec: graph `A → B` (static) with a dynamic edge
`B → C`, forbidden `{C}`: the chain is `[{A,false},{B,false},{C,true}]` and
its tags match the edge kinds. -/
theorem c3_witness :
    IsImportChain [c3nA, c3nB, c3nC] ["C"] c3nA false
        [⟨"A", false⟩, ⟨"B", false⟩, ⟨"C", true⟩] ∧
      ∃ rest, [ImportNode.mk "A" false, ⟨"B", false⟩, ⟨"C", true⟩] =
        ⟨c3nA.id, false⟩ :: rest :=
  c3_chain_flags_match_edges [c3nA, c3nB, c3nC] c3nA ["C"]
    [⟨"A", false⟩, ⟨"B", false⟩, ⟨"C", true⟩] (by rfl)
